import Mathlib

/-!
Verification of the IPLD data-model layer (`src/ipld/kind.rs`): the `Key`
addressing type and its ordering, the `Basic` node tree, the list and map
container operations, and the CBOR-to-`Basic` conversion.

Machine integers are modelled as `Nat`/`Int`; Rust strings and byte vectors
as `List Nat` (byte sequences); `f32`/`f64` payloads as their IEEE-754 bit
patterns (`Nat`).  A Rust `panic` (the `unreachable!()` arm of `Key::cmp`,
and anything that transitively runs it) is modelled as `Option.none`;
recoverable `Result` errors as `Except Error`.
-/

/-- Error kinds of the crate's `Error` type used by this module. -/
inductive ErrorKind where
  | IndexFail
  | FailConvert
deriving DecidableEq, Repr

/-- An error value: a kind plus the formatted message produced by `err_at!`. -/
structure Error where
  kind : ErrorKind
  msg : String
deriving DecidableEq, Repr

/-- Opaque content identifier (`Cid`); this layer never inspects it. -/
structure Cid where
  id : Nat
deriving DecidableEq, Repr

/-- `Kind` of data in the data-model (one tag per `Basic` variant). -/
inductive Kind where
  | Null
  | Bool
  | Integer
  | Float
  | Text
  | Bytes
  | Link
  | List
  | Map
deriving DecidableEq, Repr

/-- Alias for the builtin boolean type, usable inside namespaces whose
inductives have a `Bool` constructor. -/
abbrev RustBool := Bool

/-- A byte sequence (a Rust `Vec<u8>`, or a `String` seen as its bytes). -/
abbrev ByteSeq := List Nat

/-- The `Key` addressing type: `Null`, `Bool`, `Offset(usize)`,
`Text(String)` (string as its UTF-8 bytes), `Bytes(Vec<u8>)`. -/
inductive Key where
  | Null
  | Bool (b : Bool)
  | Offset (n : Nat)
  | Text (s : List Nat)
  | Bytes (bs : List Nat)
deriving DecidableEq, Repr

namespace Key

/-- `Key::to_variant`: the fixed variant-rank table. -/
def to_variant : Key → Nat
  | .Null => 10
  | .Bool _ => 20
  | .Offset _ => 30
  | .Text _ => 40
  | .Bytes _ => 50

end Key

/-- Numeric comparison (`usize::cmp` and the per-byte `u8::cmp`). -/
def natCmp (a b : Nat) : Ordering :=
  if a < b then .lt else if a = b then .eq else .gt

/-- Lexicographic comparison of byte sequences: Rust's `Ord` for `String`
(byte order) and for `Vec<u8>`. -/
def lexCmp : List Nat → List Nat → Ordering
  | [], [] => .eq
  | [], _ :: _ => .lt
  | _ :: _, [] => .gt
  | a :: xs, b :: ys =>
    match natCmp a b with
    | .eq => lexCmp xs ys
    | c => c

namespace Key

/-- `Ord::cmp` for `Key`: variant rank first, payload second.  The source's
`(_, _) => unreachable!()` arm (a panic) is modelled as `none`. -/
def cmp (a b : Key) : Option Ordering :=
  match natCmp a.to_variant b.to_variant with
  | .eq =>
    match a, b with
    | .Null, .Null => some .eq
    | .Bool false, .Bool true => some .lt
    | .Bool true, .Bool false => some .gt
    | .Offset x, .Offset y => some (natCmp x y)
    | .Text x, .Text y => some (lexCmp x y)
    | .Bytes x, .Bytes y => some (lexCmp x y)
    | _, _ => none
  | c => some c

/-- `PartialEq::eq` for `Key`: structural per-variant, cross-variant false. -/
def beq : Key → Key → RustBool
  | .Null, .Null => true
  | .Bool a, .Bool b => a == b
  | .Offset a, .Offset b => a == b
  | .Text a, .Text b => a == b
  | .Bytes a, .Bytes b => a == b
  | _, _ => false

/-- Render a byte sequence as the characters Rust's `Display` would write. -/
def bytesText (s : List Nat) : String :=
  String.mk (s.map Char.ofNat)

/-- `Display` for `Key` (`key-null`, `key-bool-<v>`, ...). -/
def display : Key → String
  | .Null => "key-null"
  | .Bool b => "key-bool-" ++ toString b
  | .Offset n => "key-off-" ++ toString n
  | .Text s => "key-str-" ++ bytesText s
  | .Bytes bs => "key-bytes-" ++ toString bs

/-- Whether a key is a `Text` key. -/
def isText : Key → RustBool
  | .Text _ => true
  | _ => false

end Key

/-- `str::parse::<usize>` on the bytes of a string: optional leading `+`,
then one or more ASCII digits, value below `2^64` (64-bit `usize`). -/
def parseUsize (s : List Nat) : Option Nat :=
  let ds := match s with
    | 43 :: r => r
    | _ => s
  if ds.isEmpty then none
  else if ds.all (fun c => 48 ≤ c && c ≤ 57) then
    let n := ds.foldl (fun a c => a * 10 + (c - 48)) 0
    if n < 2 ^ 64 then some n else none
  else none

/-- A UTF-8 continuation byte (`0x80..=0xBF`). -/
def contB (c : Nat) : Bool := 0x80 ≤ c && c ≤ 0xBF

/-- `std::str::from_utf8` validity of a byte sequence. -/
def utf8Valid : List Nat → Bool
  | [] => true
  | b :: rest =>
    if b < 0x80 then utf8Valid rest
    else if 0xC2 ≤ b && b ≤ 0xDF then
      match rest with
      | c1 :: r => contB c1 && utf8Valid r
      | _ => false
    else if b = 0xE0 then
      match rest with
      | c1 :: c2 :: r => (0xA0 ≤ c1 && c1 ≤ 0xBF) && contB c2 && utf8Valid r
      | _ => false
    else if (0xE1 ≤ b && b ≤ 0xEC) || b = 0xEE || b = 0xEF then
      match rest with
      | c1 :: c2 :: r => contB c1 && contB c2 && utf8Valid r
      | _ => false
    else if b = 0xED then
      match rest with
      | c1 :: c2 :: r => (0x80 ≤ c1 && c1 ≤ 0x9F) && contB c2 && utf8Valid r
      | _ => false
    else if b = 0xF0 then
      match rest with
      | c1 :: c2 :: c3 :: r =>
        (0x90 ≤ c1 && c1 ≤ 0xBF) && contB c2 && contB c3 && utf8Valid r
      | _ => false
    else if 0xF1 ≤ b && b ≤ 0xF3 then
      match rest with
      | c1 :: c2 :: c3 :: r => contB c1 && contB c2 && contB c3 && utf8Valid r
      | _ => false
    else if b = 0xF4 then
      match rest with
      | c1 :: c2 :: c3 :: r =>
        (0x80 ≤ c1 && c1 ≤ 0x8F) && contB c2 && contB c3 && utf8Valid r
      | _ => false
    else false

/-- IEEE-754 widening `f32 → f64` (Rust's `as f64` cast) on bit patterns. -/
def f32ToF64 (b : Nat) : Nat :=
  let s := b / 2 ^ 31 % 2
  let e := b / 2 ^ 23 % 2 ^ 8
  let m := b % 2 ^ 23
  if e = 255 then s * 2 ^ 63 + 2047 * 2 ^ 52 + m * 2 ^ 29
  else if e = 0 then
    if m = 0 then s * 2 ^ 63
    else
      let k := Nat.log2 m
      s * 2 ^ 63 + (k + 874) * 2 ^ 52 + (m - 2 ^ k) * 2 ^ (52 - k)
  else s * 2 ^ 63 + (e + 896) * 2 ^ 52 + m * 2 ^ 29

/-- CBOR simple values (major type 7 payloads). -/
inductive SimpleValue where
  | Unassigned
  | True
  | False
  | Null
  | Undefined
  | Reserved24 (b : Nat)
  | F16 (bits : Nat)
  | F32 (bits : Nat)
  | F64 (bits : Nat)
  | Break
deriving DecidableEq, Repr

/-- CBOR tagged values recognized by this layer. -/
inductive Tag where
  | Link (cid : Cid)
deriving DecidableEq, Repr

/-- The decoded CBOR value tree consumed by the conversion.  Each node
carries its header info byte (ignored by the conversion) plus payload.
Strings are their UTF-8 bytes; a map is the decoded sequence of
(text-key, value) pairs in input order. -/
inductive Cbor where
  | Major0 (info : Nat) (num : Nat)
  | Major1 (info : Nat) (num : Nat)
  | Major2 (info : Nat) (byts : List Nat)
  | Major3 (info : Nat) (text : List Nat)
  | Major4 (info : Nat) (list : List Cbor)
  | Major5 (info : Nat) (dict : List (List Nat × Cbor))
  | Major6 (info : Nat) (tag : Tag)
  | Major7 (info : Nat) (sv : SimpleValue)
deriving Repr

mutual
/-- The `Basic` data-model node.  `List`/`Map` own a boxed `dyn Node`
container (`NodeDyn`). -/
inductive Basic : Type where
  | Null : Basic
  | Bool : RustBool → Basic
  | Integer : Int → Basic
  | Float : Nat → Basic
  | Text : List Nat → Basic
  | Bytes : List Nat → Basic
  | Link : Cid → Basic
  | List : NodeDyn → Basic
  | Map : NodeDyn → Basic

/-- A boxed `dyn Node` value: a `Basic` scalar/tree, a `Vec<Box<dyn Node>>`
list container, or a `BTreeMap<Key, Box<dyn Node>>` map container (modelled
as its strictly key-sorted entry list). -/
inductive NodeDyn : Type where
  | basic : Basic → NodeDyn
  | vec : List NodeDyn → NodeDyn
  | btree : List (Key × NodeDyn) → NodeDyn
end

/-- The `Key::Offset` arm of the vec `get`: index in range or `IndexFail`. -/
def vecGetOffset {α : Type} (xs : List α) (off : Nat) : Except Error α :=
  match xs[off]? with
  | some v => .ok v
  | none => .error ⟨.IndexFail, "missing off in vec " ++ toString off⟩

/-- `<Vec<Box<dyn Node>> as Node>::get`: `Offset` indexes in range, `Text`
parses as `usize` and retries as `Offset` (the source re-enters `get` with
`Key::Offset(off)`, which is `vecGetOffset`), anything else is `IndexFail`. -/
def vecGet {α : Type} (xs : List α) (k : Key) : Except Error α :=
  match k with
  | .Offset off => vecGetOffset xs off
  | .Text s =>
    match parseUsize s with
    | some off => vecGetOffset xs off
    | none => .error ⟨.FailConvert, "invalid number"⟩
  | _ => .error ⟨.IndexFail, "can't index scalar-kind"⟩

/-- `<BTreeMap<Key, Box<dyn Node>> as Node>::get`: search by `Key::cmp`;
`none` models a panic inside a key comparison. -/
def btreeGet {α : Type} (m : List (Key × α)) (k : Key) : Option (Except Error α) :=
  match m with
  | [] => some (.error ⟨.IndexFail, "missing key in btreemap " ++ k.display⟩)
  | (k0, v) :: rest =>
    match Key.cmp k k0 with
    | none => none
    | some .eq => some (.ok v)
    | some _ => btreeGet rest k

/-- `BTreeMap::insert` on the sorted-entry-list model: place the new entry
at its ordered position, replacing the value (and keeping the stored key)
when an equal key exists; `none` models a panic in a key comparison. -/
def btreeInsert {α : Type} (m : List (Key × α)) (k : Key) (v : α) :
    Option (List (Key × α)) :=
  match m with
  | [] => some [(k, v)]
  | (k0, v0) :: rest =>
    match Key.cmp k k0 with
    | none => none
    | some .lt => some ((k, v) :: (k0, v0) :: rest)
    | some .eq => some ((k0, v) :: rest)
    | some .gt =>
      match btreeInsert rest k v with
      | none => none
      | some m2 => some ((k0, v0) :: m2)

/-- `<Vec<Box<dyn Node>> as Node>::iter_entries`: zip ascending offsets
with the elements in storage order. -/
def vecIterEntries {α : Type} (xs : List α) : List (Key × α) :=
  ((List.range xs.length).map Key.Offset).zip xs

/-- `<BTreeMap<Key, Box<dyn Node>> as Node>::iter_entries`: the stored
entries in key order (the model keeps them sorted). -/
def btreeIterEntries {α : Type} (m : List (Key × α)) : List (Key × α) := m

namespace Basic

/-- `Node::to_kind` for `Basic`. -/
def to_kind : Basic → Kind
  | .Null => .Null
  | .Bool _ => .Bool
  | .Integer _ => .Integer
  | .Float _ => .Float
  | .Text _ => .Text
  | .Bytes _ => .Bytes
  | .Link _ => .Link
  | .List _ => .List
  | .Map _ => .Map

/-- `Node::is_null` for `Basic`. -/
def is_null : Basic → RustBool
  | .Null => true
  | _ => false

/-- `Node::to_bool` for `Basic`. -/
def to_bool : Basic → Option RustBool
  | .Bool b => some b
  | _ => none

/-- `Node::to_integer` for `Basic`. -/
def to_integer : Basic → Option Int
  | .Integer v => some v
  | _ => none

/-- `Node::to_float` for `Basic` (the `f64` as its bit pattern). -/
def to_float : Basic → Option Nat
  | .Float v => some v
  | _ => none

/-- `Node::as_string` for `Basic`: on `Text`, run `from_utf8` over the
stored bytes, wrapping a failure as `FailConvert`; otherwise absent. -/
def as_string : Basic → Option (Except Error ByteSeq)
  | .Text s =>
    some (if utf8Valid s then .ok s else .error ⟨.FailConvert, "invalid utf-8"⟩)
  | _ => none

/-- `Node::as_ffi_string` for `Basic`: the stored string, unvalidated. -/
def as_ffi_string : Basic → Option ByteSeq
  | .Text s => some s
  | _ => none

/-- `Node::as_bytes` for `Basic`. -/
def as_bytes : Basic → Option ByteSeq
  | .Bytes bs => some bs
  | _ => none

/-- `Node::as_link` for `Basic`. -/
def as_link : Basic → Option Cid
  | .Link c => some c
  | _ => none

end Basic

mutual
/-- `Node::get` for `Basic`: `List`/`Map` delegate to their container, any
scalar kind fails with `IndexFail`.  `none` models a panic. -/
def Basic.get : Basic → Key → Option (Except Error NodeDyn)
  | .List n, k => NodeDyn.get n k
  | .Map n, k => NodeDyn.get n k
  | _, _ => some (.error ⟨.IndexFail, "cannot index scalar type"⟩)

/-- `Node::get` dispatched through a boxed `dyn Node`. -/
def NodeDyn.get : NodeDyn → Key → Option (Except Error NodeDyn)
  | .basic b, k => Basic.get b k
  | .vec xs, k => some (vecGet xs k)
  | .btree m, k => btreeGet m k
end

mutual
/-- `Node::iter_entries` for `Basic`: containers delegate, scalars yield
the empty sequence. -/
def Basic.iter_entries : Basic → List (Key × NodeDyn)
  | .List n => NodeDyn.iter_entries n
  | .Map n => NodeDyn.iter_entries n
  | _ => []

/-- `Node::iter_entries` dispatched through a boxed `dyn Node`. -/
def NodeDyn.iter_entries : NodeDyn → List (Key × NodeDyn)
  | .basic b => Basic.iter_entries b
  | .vec xs => vecIterEntries xs
  | .btree m => btreeIterEntries m
end

mutual
/-- `TryFrom<Cbor> for Basic`.  `some (ok b)` is a successful conversion,
`some (error e)` a `FailConvert`, and `none` a panic (reachable only
through a `Key::cmp` panic inside a map insertion). -/
def tryFrom : Cbor → Option (Except Error Basic)
  | .Major0 _ num => some (.ok (.Integer (Int.ofNat num)))
  | .Major1 _ num => some (.ok (.Integer (-(Int.ofNat num + 1))))
  | .Major2 _ byts => some (.ok (.Bytes byts))
  | .Major3 _ text => some (.ok (.Text text))
  | .Major4 _ list =>
    match tryFromList list with
    | none => none
    | some (.error e) => some (.error e)
    | some (.ok xs) => some (.ok (.List (.vec xs)))
  | .Major5 _ dict =>
    match tryFromDict dict [] with
    | none => none
    | some (.error e) => some (.error e)
    | some (.ok m) => some (.ok (.Map (.btree m)))
  | .Major6 _ (.Link cid) => some (.ok (.Link cid))
  | .Major7 _ .Unassigned => some (.error ⟨.FailConvert, "unassigned simple-value"⟩)
  | .Major7 _ .True => some (.ok (.Bool true))
  | .Major7 _ .False => some (.ok (.Bool false))
  | .Major7 _ .Null => some (.ok .Null)
  | .Major7 _ .Undefined => some (.error ⟨.FailConvert, "undefined simple-value"⟩)
  | .Major7 _ (.Reserved24 _) => some (.error ⟨.FailConvert, "single byte simple-value"⟩)
  | .Major7 _ (.F16 _) => some (.error ⟨.FailConvert, "half-precision not supported"⟩)
  | .Major7 _ (.F32 v) => some (.ok (.Float (f32ToF64 v)))
  | .Major7 _ (.F64 v) => some (.ok (.Float v))
  | .Major7 _ .Break => some (.error ⟨.FailConvert, "indefinite length not supported"⟩)

/-- The `Major4` loop: convert each item in order, pushing into the list;
the first failure aborts. -/
def tryFromList : List Cbor → Option (Except Error (List NodeDyn))
  | [] => some (.ok [])
  | c :: rest =>
    match tryFrom c with
    | none => none
    | some (.error e) => some (.error e)
    | some (.ok b) =>
      match tryFromList rest with
      | none => none
      | some (.error e) => some (.error e)
      | some (.ok xs) => some (.ok (NodeDyn.basic b :: xs))

/-- The `Major5` loop: for each (key, value) pair in input order, convert
the value (first failure aborts) and insert it at `Key::Text(key)`. -/
def tryFromDict : List (List Nat × Cbor) → List (Key × NodeDyn) →
    Option (Except Error (List (Key × NodeDyn)))
  | [], acc => some (.ok acc)
  | (k, v) :: rest, acc =>
    match tryFrom v with
    | none => none
    | some (.error e) => some (.error e)
    | some (.ok b) =>
      match btreeInsert acc (.Text k) (.basic b) with
      | none => none
      | some acc2 => tryFromDict rest acc2
end

/-- The value of the last pair carrying key `t` in a decoded CBOR map. -/
def lastAssoc : List (List Nat × Cbor) → List Nat → Option Cbor
  | [], _ => none
  | (k, v) :: rest, t =>
    match lastAssoc rest t with
    | some c => some c
    | none => if k = t then some v else none

/-- Building a `BTreeMap` by inserting the given entries in sequence,
starting from the given map; `none` models a panic in a comparison. -/
def btreeInsertAll {α : Type} (l : List (Key × α)) (acc : List (Key × α)) :
    Option (List (Key × α)) :=
  match l with
  | [] => some acc
  | (k, v) :: rest =>
    match btreeInsert acc k v with
    | none => none
    | some acc2 => btreeInsertAll rest acc2

/-- Building a `BTreeMap` from scratch by inserting entries in sequence. -/
def btreeOfList {α : Type} (l : List (Key × α)) : Option (List (Key × α)) :=
  btreeInsertAll l []

/-- Strict key order between entries (defined comparison, `Less`). -/
def entryLt {α : Type} (p q : Key × α) : Prop := Key.cmp p.1 q.1 = some .lt

mutual
/-- Every map node inside a `Basic` tree is keyed solely by `Text` keys:
the invariant the conversion establishes. -/
def Basic.allMapKeysText : Basic → RustBool
  | .List n => NodeDyn.allMapKeysText n
  | .Map n => NodeDyn.allMapKeysText n
  | _ => true

/-- `allMapKeysText` through a boxed `dyn Node`. -/
def NodeDyn.allMapKeysText : NodeDyn → RustBool
  | .basic b => Basic.allMapKeysText b
  | .vec xs => nodesAllText xs
  | .btree m => entriesAllText m

/-- `allMapKeysText` over the elements of a list container. -/
def nodesAllText : List NodeDyn → RustBool
  | [] => true
  | x :: rest => NodeDyn.allMapKeysText x && nodesAllText rest

/-- Keys are `Text` and values satisfy `allMapKeysText`, over the entries
of a map container. -/
def entriesAllText : List (Key × NodeDyn) → RustBool
  | [] => true
  | (k, v) :: rest => k.isText && NodeDyn.allMapKeysText v && entriesAllText rest
end

open scoped List

/-! ## Order lemmas for the payload comparators -/

theorem natCmp_eq_iff {a b : Nat} : natCmp a b = .eq ↔ a = b := by
  unfold natCmp
  split_ifs with h1 h2 <;> simp_all <;> omega

theorem natCmp_lt_iff {a b : Nat} : natCmp a b = .lt ↔ a < b := by
  unfold natCmp
  split_ifs with h1 h2 <;> simp_all <;> omega

theorem natCmp_gt_iff {a b : Nat} : natCmp a b = .gt ↔ b < a := by
  unfold natCmp
  split_ifs with h1 h2 <;> simp_all <;> omega

theorem natCmp_swap (a b : Nat) : natCmp b a = (natCmp a b).swap := by
  unfold natCmp
  split_ifs <;> first | rfl | omega

theorem lexCmp_eq_iff : ∀ {x y : ByteSeq}, lexCmp x y = .eq ↔ x = y := by
  intro x
  induction x with
  | nil => intro y; cases y <;> simp [lexCmp]
  | cons a xs ih =>
    intro y
    cases y with
    | nil => simp [lexCmp]
    | cons b ys =>
      simp only [lexCmp]
      cases h : natCmp a b with
      | lt =>
        have hab : a < b := natCmp_lt_iff.mp h
        simp only [List.cons.injEq]
        constructor
        · intro hc; cases hc
        · rintro ⟨h1, _⟩; omega
      | eq =>
        have hab : a = b := natCmp_eq_iff.mp h
        simp [ih, hab]
      | gt =>
        have hab : b < a := natCmp_gt_iff.mp h
        simp only [List.cons.injEq]
        constructor
        · intro hc; cases hc
        · rintro ⟨h1, _⟩; omega

theorem lexCmp_swap : ∀ (x y : ByteSeq), lexCmp y x = (lexCmp x y).swap := by
  intro x
  induction x with
  | nil => intro y; cases y <;> rfl
  | cons a xs ih =>
    intro y
    cases y with
    | nil => rfl
    | cons b ys =>
      simp only [lexCmp, natCmp_swap a b]
      cases h : natCmp a b <;> simp [Ordering.swap, ih]

theorem lexCmp_lt_trans :
    ∀ {x y z : ByteSeq}, lexCmp x y = .lt → lexCmp y z = .lt → lexCmp x z = .lt := by
  intro x
  induction x with
  | nil =>
    intro y z hxy hyz
    cases y with
    | nil => exact hyz
    | cons b ys => cases z with
      | nil => simp [lexCmp] at hyz
      | cons c zs => rfl
  | cons a xs ih =>
    intro y z hxy hyz
    cases y with
    | nil => simp [lexCmp] at hxy
    | cons b ys =>
      cases z with
      | nil => simp [lexCmp] at hyz
      | cons c zs =>
        simp only [lexCmp] at hxy hyz ⊢
        cases hab : natCmp a b with
        | gt => rw [hab] at hxy; cases hxy
        | lt =>
          have h1 : a < b := natCmp_lt_iff.mp hab
          cases hbc : natCmp b c with
          | gt => rw [hbc] at hyz; cases hyz
          | lt =>
            have h2 : b < c := natCmp_lt_iff.mp hbc
            rw [natCmp_lt_iff.mpr (by omega : a < c)]
          | eq =>
            have h2 : b = c := natCmp_eq_iff.mp hbc
            rw [natCmp_lt_iff.mpr (by omega : a < c)]
        | eq =>
          have h1 : a = b := natCmp_eq_iff.mp hab
          rw [hab] at hxy
          cases hbc : natCmp b c with
          | gt => rw [hbc] at hyz; cases hyz
          | lt =>
            have h2 : b < c := natCmp_lt_iff.mp hbc
            rw [natCmp_lt_iff.mpr (by omega : a < c)]
          | eq =>
            have h2 : b = c := natCmp_eq_iff.mp hbc
            rw [hbc] at hyz
            rw [natCmp_eq_iff.mpr (by omega : a = c)]
            exact ih hxy hyz

/-! ## Order lemmas for `Key::cmp` on its defined domain -/

theorem Key.cmp_offset (x y : Nat) :
    Key.cmp (.Offset x) (.Offset y) = some (natCmp x y) := rfl

theorem Key.cmp_text (x y : ByteSeq) :
    Key.cmp (.Text x) (.Text y) = some (lexCmp x y) := rfl

theorem Key.cmp_bytes (x y : ByteSeq) :
    Key.cmp (.Bytes x) (.Bytes y) = some (lexCmp x y) := rfl

theorem Key.cmp_swap (a b : Key) :
    Key.cmp b a = (Key.cmp a b).map Ordering.swap := by
  cases a <;> cases b
  all_goals try rfl
  all_goals try (rename_i x y; cases x <;> cases y <;> rfl)
  · rename_i x y
    rw [Key.cmp_offset, Key.cmp_offset, natCmp_swap]
    rfl
  · rename_i x y
    rw [Key.cmp_text, Key.cmp_text, lexCmp_swap]
    rfl
  · rename_i x y
    rw [Key.cmp_bytes, Key.cmp_bytes, lexCmp_swap]
    rfl

theorem Key.cmp_eq_imp : ∀ {a b : Key}, Key.cmp a b = some .eq → a = b := by
  intro a b h
  cases a <;> cases b
  all_goals try rfl
  all_goals try (exfalso; simp [Key.cmp, Key.to_variant, natCmp] at h; done)
  all_goals try (rename_i x y; cases x <;> cases y <;> revert h <;> decide)
  · rename_i x y
    rw [Key.cmp_offset, Option.some_inj] at h
    exact congrArg Key.Offset (natCmp_eq_iff.mp h)
  · rename_i x y
    rw [Key.cmp_text, Option.some_inj] at h
    exact congrArg Key.Text (lexCmp_eq_iff.mp h)
  · rename_i x y
    rw [Key.cmp_bytes, Option.some_inj] at h
    exact congrArg Key.Bytes (lexCmp_eq_iff.mp h)

theorem Key.cmp_lt_trans :
    ∀ {a b c : Key}, Key.cmp a b = some .lt → Key.cmp b c = some .lt →
      Key.cmp a c = some .lt := by
  intro a b c hab hbc
  cases a <;> cases b <;> cases c
  all_goals try rfl
  all_goals try (exfalso; simp [Key.cmp, Key.to_variant, natCmp] at hab; done)
  all_goals try (exfalso; simp [Key.cmp, Key.to_variant, natCmp] at hbc; done)
  all_goals try
    (rename_i x y z; cases x <;> cases y <;> cases z <;> revert hab hbc <;> decide)
  · rename_i x y z
    rw [Key.cmp_offset, Option.some_inj] at hab hbc
    rw [Key.cmp_offset, Option.some_inj]
    rw [natCmp_lt_iff] at hab hbc
    exact natCmp_lt_iff.mpr (by omega)
  · rename_i x y z
    rw [Key.cmp_text, Option.some_inj] at hab hbc
    rw [Key.cmp_text, Option.some_inj]
    exact lexCmp_lt_trans hab hbc
  · rename_i x y z
    rw [Key.cmp_bytes, Option.some_inj] at hab hbc
    rw [Key.cmp_bytes, Option.some_inj]
    exact lexCmp_lt_trans hab hbc

theorem Key.cmp_gt_imp_lt {a b : Key} (h : Key.cmp a b = some .gt) :
    Key.cmp b a = some .lt := by
  rw [Key.cmp_swap a b, h]
  rfl

theorem Key.cmp_lt_imp_gt {a b : Key} (h : Key.cmp a b = some .lt) :
    Key.cmp b a = some .gt := by
  rw [Key.cmp_swap a b, h]
  rfl

theorem Key.cmp_lt_ne {a b : Key} (h : Key.cmp a b = some .lt) : a ≠ b := by
  rintro rfl
  have hs := Key.cmp_swap a a
  rw [h] at hs
  simp [Ordering.swap] at hs

theorem Key.cmp_lt_asymm {a b : Key} (h : Key.cmp a b = some .lt) :
    ¬ Key.cmp b a = some .lt := by
  rw [Key.cmp_lt_imp_gt h]
  simp

theorem Key.cmp_text_eq_iff {t s : ByteSeq} :
    Key.cmp (.Text t) (.Text s) = some .eq ↔ t = s := by
  rw [Key.cmp_text, Option.some_inj]
  exact lexCmp_eq_iff

/-! ## Claim theorems: key ordering bug evaluations -/

/-- C1: the claimed total order fails on the code: `Key::Bool(false)`
equals itself under `PartialEq::eq`, yet `Key::cmp` on that same pair runs
the `unreachable!()` arm (a panic, modelled `none`) instead of returning
`Equal`, because the inner match has no arm for two equal booleans. -/
theorem key_cmp_equal_bool_panics :
    Key.beq (.Bool false) (.Bool false) = true ∧
      Key.cmp (.Bool false) (.Bool false) = none := by
  constructor <;> rfl

/-- C9: the fail-fast arm of `Key::cmp` is claimed unreachable and the
comparison claimed panic-free; evaluating the code on two identical
`Bool(true)` keys — equal variants, equal ranks — reaches that arm and
panics (modelled `none`). -/
theorem key_cmp_rank_tie_panic :
    Key.to_variant (.Bool true) = Key.to_variant (.Bool true) ∧
      Key.cmp (.Bool true) (.Bool true) = none := by
  constructor <;> rfl

/-! ## Claim theorems: conversion of integers and simple values -/

/-- C2: an unsigned-integer codec value with value `n` converts to
`Integer(n)`, a negative-integer codec value with encoded magnitude `n`
converts to `Integer(-(n + 1))` in 128-bit arithmetic, and the converted
nodes answer `to_kind() = Integer` and `to_integer() = Some(...)`; in
particular value 42 yields `Some(42)` and magnitude 5 yields `Some(-6)`. -/
theorem conv_integer_roundtrip :
    (∀ i n, tryFrom (.Major0 i n) = some (.ok (.Integer (Int.ofNat n)))) ∧
    (∀ i n, tryFrom (.Major1 i n) = some (.ok (.Integer (-(Int.ofNat n + 1))))) ∧
    (∀ z : Int, (Basic.Integer z).to_kind = Kind.Integer ∧
      (Basic.Integer z).to_integer = some z) ∧
    (∃ b, tryFrom (.Major0 0 42) = some (.ok b) ∧ b.to_kind = Kind.Integer ∧
      b.to_integer = some 42) ∧
    (∃ b, tryFrom (.Major1 0 5) = some (.ok b) ∧ b.to_integer = some (-6)) := by
  refine ⟨fun i n => rfl, fun i n => rfl, fun z => ⟨rfl, rfl⟩, ⟨.Integer 42, rfl, rfl, rfl⟩,
    ⟨.Integer (-6), ?_, rfl⟩⟩
  rfl

/-- C5: conversion of a simple value succeeds exactly for `true`, `false`,
`null`, 32-bit floats (widened to 64-bit) and 64-bit floats, and fails
with `FailConvert` and a feature-identifying message for unassigned,
undefined, single-byte-reserved, half-precision and break values. -/
theorem simple_value_conversion_spec : ∀ i : Nat,
    tryFrom (.Major7 i .True) = some (.ok (.Bool true)) ∧
    tryFrom (.Major7 i .False) = some (.ok (.Bool false)) ∧
    tryFrom (.Major7 i .Null) = some (.ok .Null) ∧
    (∀ v, tryFrom (.Major7 i (.F32 v)) = some (.ok (.Float (f32ToF64 v)))) ∧
    (∀ v, tryFrom (.Major7 i (.F64 v)) = some (.ok (.Float v))) ∧
    tryFrom (.Major7 i .Unassigned) =
      some (.error ⟨.FailConvert, "unassigned simple-value"⟩) ∧
    tryFrom (.Major7 i .Undefined) =
      some (.error ⟨.FailConvert, "undefined simple-value"⟩) ∧
    (∀ v, tryFrom (.Major7 i (.Reserved24 v)) =
      some (.error ⟨.FailConvert, "single byte simple-value"⟩)) ∧
    (∀ v, tryFrom (.Major7 i (.F16 v)) =
      some (.error ⟨.FailConvert, "half-precision not supported"⟩)) ∧
    tryFrom (.Major7 i .Break) =
      some (.error ⟨.FailConvert, "indefinite length not supported"⟩) :=
  fun i => ⟨rfl, rfl, rfl, fun v => rfl, fun v => rfl, rfl, rfl, fun v => rfl,
    fun v => rfl, rfl⟩

/-! ## Claim theorems: node accessors and scalar indexing -/

/-- C8: `get()` on a `Basic` node of any scalar kind fails with
`IndexFail` for every key without panicking, while the `List` and `Map`
variants delegate `get()` to their owned container. -/
theorem scalar_get_indexfail :
    (∀ (b : Basic) (k : Key), b.to_kind ≠ Kind.List → b.to_kind ≠ Kind.Map →
      Basic.get b k = some (.error ⟨.IndexFail, "cannot index scalar type"⟩)) ∧
    (∀ (n : NodeDyn) (k : Key), Basic.get (.List n) k = NodeDyn.get n k) ∧
    (∀ (n : NodeDyn) (k : Key), Basic.get (.Map n) k = NodeDyn.get n k) := by
  refine ⟨fun b k h1 h2 => ?_, fun n k => rfl, fun n k => rfl⟩
  cases b
  case List => exact absurd rfl h1
  case Map => exact absurd rfl h2
  all_goals rfl

/-- Witness for C8 at a concrete scalar node and key. -/
theorem scalar_get_indexfail_witness :
    Basic.get (.Integer 7) .Null =
      some (.error ⟨.IndexFail, "cannot index scalar type"⟩) :=
  scalar_get_indexfail.1 (.Integer 7) .Null (by decide) (by decide)

/-- C4: `as_string()` on a `Text` node returns the stored string when its
bytes are valid UTF-8 and fails with `FailConvert` exactly when they are
not; `as_ffi_string()` returns the stored string without validation; both
return `None` on every non-`Text` node. -/
theorem text_accessors_spec :
    (∀ s, utf8Valid s = true → Basic.as_string (.Text s) = some (.ok s)) ∧
    (∀ s, utf8Valid s = false →
      Basic.as_string (.Text s) = some (.error ⟨.FailConvert, "invalid utf-8"⟩)) ∧
    (∀ s, Basic.as_ffi_string (.Text s) = some s) ∧
    (∀ b : Basic, b.to_kind ≠ Kind.Text →
      Basic.as_string b = none ∧ Basic.as_ffi_string b = none) := by
  refine ⟨fun s h => ?_, fun s h => ?_, fun s => rfl, fun b h => ?_⟩
  · simp [Basic.as_string, h]
  · simp [Basic.as_string, h]
  · cases b
    case Text => exact absurd rfl h
    all_goals exact ⟨rfl, rfl⟩

/-- Witness for C4 at concrete valid, invalid and non-`Text` inputs. -/
theorem text_accessors_spec_witness :
    Basic.as_string (.Text [104, 105]) = some (.ok [104, 105]) ∧
    Basic.as_string (.Text [255]) =
      some (.error ⟨.FailConvert, "invalid utf-8"⟩) ∧
    Basic.as_ffi_string (.Text [255]) = some [255] ∧
    Basic.as_string (.Integer 3) = none :=
  ⟨text_accessors_spec.1 [104, 105] (by decide),
    text_accessors_spec.2.1 [255] (by decide),
    text_accessors_spec.2.2.1 [255],
    (text_accessors_spec.2.2.2 (.Integer 3) (by decide)).1⟩

/-! ## Claim theorems: list container indexing -/

/-- C3: on a list container, `get(Offset(i))` returns the element at `i`
when in range and fails with `IndexFail` otherwise; `get(Text(s))` parses
`s` as a non-negative integer, failing with `FailConvert` on a parse
error and otherwise behaving exactly as `get(Offset(parsed))`; `Null`,
`Bool` and `Bytes` keys always fail with `IndexFail`. -/
theorem list_get_spec :
    (∀ (xs : List NodeDyn) (i : Nat) (h : i < xs.length),
      vecGet xs (.Offset i) = .ok (xs.get ⟨i, h⟩)) ∧
    (∀ (xs : List NodeDyn) (i : Nat), xs.length ≤ i →
      vecGet xs (.Offset i) =
        .error ⟨.IndexFail, "missing off in vec " ++ toString i⟩) ∧
    (∀ (xs : List NodeDyn) (s : ByteSeq) (n : Nat), parseUsize s = some n →
      vecGet xs (.Text s) = vecGet xs (.Offset n)) ∧
    (∀ (xs : List NodeDyn) (s : ByteSeq), parseUsize s = none →
      vecGet xs (.Text s) = .error ⟨.FailConvert, "invalid number"⟩) ∧
    (∀ xs : List NodeDyn, vecGet xs .Null =
      .error ⟨.IndexFail, "can't index scalar-kind"⟩) ∧
    (∀ (xs : List NodeDyn) (b : RustBool), vecGet xs (.Bool b) =
      .error ⟨.IndexFail, "can't index scalar-kind"⟩) ∧
    (∀ (xs : List NodeDyn) (bs : ByteSeq), vecGet xs (.Bytes bs) =
      .error ⟨.IndexFail, "can't index scalar-kind"⟩) := by
  refine ⟨fun xs i h => ?_, fun xs i h => ?_, fun xs s n h => ?_, fun xs s h => ?_,
    fun xs => rfl, fun xs b => rfl, fun xs bs => rfl⟩
  · simp [vecGet, vecGetOffset, List.getElem?_eq_getElem h]
  · simp [vecGet, vecGetOffset, List.getElem?_eq_none h]
  · simp [vecGet, h]
  · simp [vecGet, h]

/-- Witness for C3: a three-element list with each key shape. -/
theorem list_get_spec_witness :
    vecGet [NodeDyn.basic .Null, .basic (.Integer 1), .basic .Null] (.Offset 1) =
      .ok (.basic (.Integer 1)) ∧
    vecGet [NodeDyn.basic .Null, .basic (.Integer 1), .basic .Null] (.Offset 5) =
      .error ⟨.IndexFail, "missing off in vec 5"⟩ ∧
    vecGet [NodeDyn.basic .Null, .basic (.Integer 1), .basic .Null] (.Text [49]) =
      vecGet [NodeDyn.basic .Null, .basic (.Integer 1), .basic .Null] (.Offset 1) ∧
    vecGet [NodeDyn.basic .Null, .basic (.Integer 1), .basic .Null] (.Text [120]) =
      .error ⟨.FailConvert, "invalid number"⟩ :=
  ⟨list_get_spec.1 _ 1 (by decide),
    list_get_spec.2.1 _ 5 (by decide),
    list_get_spec.2.2.1 _ [49] 1 (by decide),
    list_get_spec.2.2.2.1 _ [120] (by decide)⟩

/-! ## Sortedness and permutation lemmas for the map container -/

theorem btreeInsert_keys {α : Type} :
    ∀ (m : List (Key × α)) (k : Key) (v : α) (m2 : List (Key × α)),
      btreeInsert m k v = some m2 →
      ∀ p ∈ m2, p.1 = k ∨ p.1 ∈ m.map Prod.fst := by
  intro m
  induction m with
  | nil =>
    intro k v m2 h p hp
    simp only [btreeInsert, Option.some_inj] at h
    subst h
    simp only [List.mem_singleton] at hp
    subst hp
    exact Or.inl rfl
  | cons hd rest ih =>
    rcases hd with ⟨k0, v0⟩
    intro k v m2 h p hp
    simp only [btreeInsert] at h
    split at h
    · cases h
    · rw [Option.some_inj] at h
      subst h
      rcases hp with _ | ⟨_, hp⟩
      · exact Or.inl rfl
      rcases hp with _ | ⟨_, hp⟩
      · exact Or.inr (by simp)
      · exact Or.inr (List.mem_map.mpr ⟨p, List.mem_cons_of_mem _ hp, rfl⟩)
    · rw [Option.some_inj] at h
      subst h
      rcases hp with _ | ⟨_, hp⟩
      · exact Or.inr (by simp)
      · exact Or.inr (List.mem_map.mpr ⟨p, List.mem_cons_of_mem _ hp, rfl⟩)
    · split at h
      · cases h
      · rename_i m3 hrec
        rw [Option.some_inj] at h
        subst h
        rcases hp with _ | ⟨_, hp⟩
        · exact Or.inr (by simp)
        · rcases ih k v m3 hrec p hp with h1 | h1
          · exact Or.inl h1
          · rw [List.map_cons]
            exact Or.inr (List.mem_cons_of_mem _ h1)

theorem btreeInsert_pairwise {α : Type} :
    ∀ (m : List (Key × α)) (k : Key) (v : α) (m2 : List (Key × α)),
      m.Pairwise entryLt → btreeInsert m k v = some m2 →
      m2.Pairwise entryLt := by
  intro m
  induction m with
  | nil =>
    intro k v m2 _ h
    simp only [btreeInsert, Option.some_inj] at h
    subst h
    simp
  | cons hd rest ih =>
    rcases hd with ⟨k0, v0⟩
    intro k v m2 hs h
    rcases List.pairwise_cons.mp hs with ⟨hs1, hs2⟩
    simp only [btreeInsert] at h
    split at h
    · cases h
    · rename_i hc
      rw [Option.some_inj] at h
      subst h
      refine List.Pairwise.cons ?_ hs
      intro q hq
      rcases hq with _ | ⟨_, hq⟩
      · exact hc
      · exact Key.cmp_lt_trans hc (hs1 q hq)
    · rename_i hc
      rw [Option.some_inj] at h
      subst h
      exact List.Pairwise.cons (fun q hq => hs1 q hq) hs2
    · rename_i hc
      split at h
      · cases h
      · rename_i m3 hrec
        rw [Option.some_inj] at h
        subst h
        refine List.Pairwise.cons ?_ (ih k v m3 hs2 hrec)
        intro q hq
        rcases btreeInsert_keys rest k v m3 hrec q hq with h1 | h1
        · rw [entryLt, h1]
          exact Key.cmp_gt_imp_lt hc
        · rcases List.mem_map.mp h1 with ⟨q0, hq0, hq1⟩
          rw [entryLt, ← hq1]
          exact hs1 q0 hq0

theorem btreeInsert_perm {α : Type} :
    ∀ (m : List (Key × α)) (k : Key) (v : α) (m2 : List (Key × α)),
      (∀ p ∈ m, p.1 ≠ k) → btreeInsert m k v = some m2 →
      m2 ~ (k, v) :: m := by
  intro m
  induction m with
  | nil =>
    intro k v m2 _ h
    simp only [btreeInsert, Option.some_inj] at h
    subst h
    rfl
  | cons hd rest ih =>
    rcases hd with ⟨k0, v0⟩
    intro k v m2 hne h
    simp only [btreeInsert] at h
    split at h
    · cases h
    · rw [Option.some_inj] at h
      subst h
      rfl
    · rename_i hc
      exact absurd (Key.cmp_eq_imp hc).symm (hne (k0, v0) (by simp))
    · split at h
      · cases h
      · rename_i m3 hrec
        rw [Option.some_inj] at h
        subst h
        have h1 : m3 ~ (k, v) :: rest :=
          ih k v m3 (fun p hp => hne p (List.mem_cons_of_mem _ hp)) hrec
        calc (k0, v0) :: m3
            ~ (k0, v0) :: (k, v) :: rest := h1.cons _
          _ ~ (k, v) :: (k0, v0) :: rest := List.Perm.swap _ _ _

theorem btreeInsertAll_pairwise {α : Type} :
    ∀ (l acc m : List (Key × α)), acc.Pairwise entryLt →
      btreeInsertAll l acc = some m → m.Pairwise entryLt := by
  intro l
  induction l with
  | nil =>
    intro acc m hs h
    simp only [btreeInsertAll, Option.some_inj] at h
    subst h
    exact hs
  | cons hd rest ih =>
    rcases hd with ⟨k, v⟩
    intro acc m hs h
    simp only [btreeInsertAll] at h
    split at h
    · cases h
    · rename_i acc2 hins
      exact ih acc2 m (btreeInsert_pairwise acc k v acc2 hs hins) h

theorem btreeInsertAll_perm {α : Type} :
    ∀ (l acc m : List (Key × α)),
      ((acc ++ l).map Prod.fst).Pairwise (· ≠ ·) →
      btreeInsertAll l acc = some m → m ~ acc ++ l := by
  intro l
  induction l with
  | nil =>
    intro acc m _ h
    simp only [btreeInsertAll, Option.some_inj] at h
    subst h
    simp
  | cons hd rest ih =>
    rcases hd with ⟨k, v⟩
    intro acc m hd h
    simp only [btreeInsertAll] at h
    split at h
    · cases h
    · rename_i acc2 hins
      have hne : ∀ p ∈ acc, p.1 ≠ k := by
        intro p hp hpk
        have h1 : p.1 ∈ acc.map Prod.fst := List.mem_map.mpr ⟨p, hp, rfl⟩
        have h2 : (k : Key) ∈ ((k, v) :: rest).map Prod.fst := by simp
        rw [List.map_append, List.pairwise_append] at hd
        exact hd.2.2 p.1 h1 k h2 hpk
      have hperm : acc2 ~ (k, v) :: acc := btreeInsert_perm acc k v acc2 hne hins
      have hpermfull : acc2 ++ rest ~ acc ++ (k, v) :: rest := by
        calc acc2 ++ rest
            ~ ((k, v) :: acc) ++ rest := hperm.append_right rest
          _ = (k, v) :: (acc ++ rest) := rfl
          _ ~ acc ++ (k, v) :: rest := List.perm_middle.symm
      have hd2 : ((acc2 ++ rest).map Prod.fst).Pairwise (· ≠ ·) := by
        refine ((hpermfull.map Prod.fst).pairwise_iff ?_).mpr ?_
        · exact fun h => h.symm
        · exact hd
      exact (ih acc2 m hd2 h).trans hpermfull

/-- Length of the offset-zipped entry list of a vec container. -/
theorem vecIterEntries_length {α : Type} (xs : List α) :
    (vecIterEntries xs).length = xs.length := by
  simp [vecIterEntries]

/-- C6: `iter_entries()` on a list container yields exactly
`(Offset(0), e0), (Offset(1), e1), ...` in storage order; on a map
container built by inserting entries in any sequence, it yields the
entries in strictly ascending `Key` order, and for duplicate-free keys the
yielded set is exactly the inserted set, independent of insertion order. -/
theorem iter_entries_spec :
    (∀ xs : List NodeDyn, (vecIterEntries xs).length = xs.length) ∧
    (∀ (xs : List NodeDyn) (i : Nat),
      (vecIterEntries xs)[i]? = (xs[i]?).map (fun x => (Key.Offset i, x))) ∧
    (∀ l m : List (Key × NodeDyn), btreeOfList l = some m →
      (btreeIterEntries m).Pairwise entryLt) ∧
    (∀ l m : List (Key × NodeDyn), (l.map Prod.fst).Pairwise (· ≠ ·) →
      btreeOfList l = some m → btreeIterEntries m ~ l) ∧
    (∀ l l2 m m2 : List (Key × NodeDyn), (l.map Prod.fst).Pairwise (· ≠ ·) →
      l2 ~ l → btreeOfList l = some m → btreeOfList l2 = some m2 →
      btreeIterEntries m2 = btreeIterEntries m) := by
  have hsorted : ∀ l m : List (Key × NodeDyn), btreeOfList l = some m →
      m.Pairwise entryLt := fun l m h =>
    btreeInsertAll_pairwise l [] m List.Pairwise.nil h
  have hperm : ∀ l m : List (Key × NodeDyn), (l.map Prod.fst).Pairwise (· ≠ ·) →
      btreeOfList l = some m → m ~ l := by
    intro l m hd h
    have h1 := btreeInsertAll_perm l [] m (by simpa using hd) h
    simpa using h1
  refine ⟨fun xs => vecIterEntries_length xs, fun xs i => ?_, hsorted, hperm, ?_⟩
  · rcases Nat.lt_or_ge i xs.length with h | h
    · rw [List.getElem?_eq_getElem h, Option.map_some']
      refine List.getElem?_zip_eq_some.mpr ⟨?_, List.getElem?_eq_getElem h⟩
      rw [List.getElem?_map, List.getElem?_range h]
      rfl
    · have h2 : (vecIterEntries xs).length ≤ i := by
        rw [vecIterEntries_length]
        exact h
      rw [List.getElem?_eq_none h, List.getElem?_eq_none h2]
      rfl
  · intro l l2 m m2 hd hp h h2
    have hd2 : (l2.map Prod.fst).Pairwise (· ≠ ·) :=
      ((hp.map Prod.fst).pairwise_iff fun hx => hx.symm).mpr hd
    have p1 : m ~ l := hperm l m hd h
    have p2 : m2 ~ l2 := hperm l2 m2 hd2 h2
    have p3 : m2 ~ m := p2.trans (hp.trans p1.symm)
    haveI : IsAntisymm (Key × NodeDyn) entryLt :=
      ⟨fun p q hpq hqp => absurd hqp (Key.cmp_lt_asymm hpq)⟩
    exact List.eq_of_perm_of_sorted p3 (hsorted l2 m2 h2) (hsorted l m h)

/-- Witness for C6: a two-entry map inserted in both orders. -/
theorem iter_entries_spec_witness :
    (btreeIterEntries
      [(Key.Offset 0, NodeDyn.basic (.Integer 7)),
        (Key.Offset 1, NodeDyn.basic .Null)]).Pairwise entryLt ∧
    btreeIterEntries
      [(Key.Offset 0, NodeDyn.basic (.Integer 7)),
        (Key.Offset 1, NodeDyn.basic .Null)] ~
      [(Key.Offset 1, NodeDyn.basic .Null),
        (Key.Offset 0, NodeDyn.basic (.Integer 7))] ∧
    btreeIterEntries
      [(Key.Offset 0, NodeDyn.basic (.Integer 7)),
        (Key.Offset 1, NodeDyn.basic .Null)] =
      btreeIterEntries
        [(Key.Offset 0, NodeDyn.basic (.Integer 7)),
          (Key.Offset 1, NodeDyn.basic .Null)] :=
  ⟨iter_entries_spec.2.2.1
      [(Key.Offset 1, NodeDyn.basic .Null),
        (Key.Offset 0, NodeDyn.basic (.Integer 7))] _ rfl,
    iter_entries_spec.2.2.2.1
      [(Key.Offset 1, NodeDyn.basic .Null),
        (Key.Offset 0, NodeDyn.basic (.Integer 7))] _
      (by simp [List.pairwise_cons]) rfl,
    iter_entries_spec.2.2.2.2
      [(Key.Offset 1, NodeDyn.basic .Null),
        (Key.Offset 0, NodeDyn.basic (.Integer 7))]
      [(Key.Offset 0, NodeDyn.basic (.Integer 7)),
        (Key.Offset 1, NodeDyn.basic .Null)] _ _
      (by simp [List.pairwise_cons])
      (List.Perm.swap _ _ _) rfl rfl⟩

/-! ## Text-keyed map lemmas for the conversion of CBOR maps -/

theorem Key.isText_eq_true {k : Key} (h : k.isText = true) : ∃ s, k = .Text s := by
  cases k
  case Text s => exact ⟨s, rfl⟩
  all_goals simp [Key.isText] at h

theorem btreeGet_text_hit (s : ByteSeq) (v : NodeDyn) (rest : List (Key × NodeDyn)) :
    btreeGet ((Key.Text s, v) :: rest) (.Text s) = some (.ok v) := by
  have h : lexCmp s s = .eq := lexCmp_eq_iff.mpr rfl
  simp [btreeGet, Key.cmp_text, h]

theorem btreeGet_text_skip {t s : ByteSeq} (hne : lexCmp t s ≠ .eq)
    (v : NodeDyn) (rest : List (Key × NodeDyn)) :
    btreeGet ((Key.Text s, v) :: rest) (.Text t) = btreeGet rest (.Text t) := by
  cases hlex : lexCmp t s with
  | lt => simp [btreeGet, Key.cmp_text, hlex]
  | eq => exact absurd hlex hne
  | gt => simp [btreeGet, Key.cmp_text, hlex]

theorem btreeInsert_isText_all {m m2 : List (Key × NodeDyn)} {k : Key} {v : NodeDyn}
    (hm : ∀ p ∈ m, p.1.isText = true) (hk : k.isText = true)
    (h : btreeInsert m k v = some m2) :
    ∀ p ∈ m2, p.1.isText = true := by
  intro p hp
  rcases btreeInsert_keys m k v m2 h p hp with h1 | h1
  · rw [h1]
    exact hk
  · rcases List.mem_map.mp h1 with ⟨q, hq, hq1⟩
    rw [← hq1]
    exact hm q hq

theorem btreeGet_text_insert :
    ∀ (m : List (Key × NodeDyn)) (s : ByteSeq) (v : NodeDyn)
      (m2 : List (Key × NodeDyn)),
      (∀ p ∈ m, p.1.isText = true) →
      btreeInsert m (.Text s) v = some m2 →
      ∀ t, btreeGet m2 (.Text t) =
        if t = s then some (.ok v) else btreeGet m (.Text t) := by
  intro m
  induction m with
  | nil =>
    intro s v m2 _ h t
    simp only [btreeInsert, Option.some_inj] at h
    subst h
    by_cases hts : t = s
    · subst hts
      rw [if_pos rfl, btreeGet_text_hit]
    · rw [if_neg hts, btreeGet_text_skip (fun hc => hts (lexCmp_eq_iff.mp hc))]
  | cons hd rest ih =>
    rcases hd with ⟨k0, v0⟩
    intro s v m2 hall h t
    obtain ⟨s0, rfl⟩ := Key.isText_eq_true (hall (k0, v0) (by simp))
    have hallr : ∀ p ∈ rest, p.1.isText = true :=
      fun p hp => hall p (List.mem_cons_of_mem _ hp)
    simp only [btreeInsert] at h
    split at h
    · cases h
    · rename_i hc
      rw [Key.cmp_text, Option.some_inj] at hc
      rw [Option.some_inj] at h
      subst h
      by_cases hts : t = s
      · subst hts
        rw [if_pos rfl, btreeGet_text_hit]
      · rw [if_neg hts, btreeGet_text_skip (fun hx => hts (lexCmp_eq_iff.mp hx))]
    · rename_i hc
      rw [Key.cmp_text, Option.some_inj] at hc
      obtain rfl : s = s0 := lexCmp_eq_iff.mp hc
      rw [Option.some_inj] at h
      subst h
      by_cases hts : t = s
      · subst hts
        rw [if_pos rfl, btreeGet_text_hit]
      · have hne : lexCmp t s ≠ .eq := fun hx => hts (lexCmp_eq_iff.mp hx)
        rw [if_neg hts, btreeGet_text_skip hne, btreeGet_text_skip hne]
    · rename_i hc
      rw [Key.cmp_text, Option.some_inj] at hc
      split at h
      · cases h
      · rename_i m3 hrec
        rw [Option.some_inj] at h
        subst h
        have hss0 : s ≠ s0 := by
          intro hx
          rw [hx, lexCmp_eq_iff.mpr rfl] at hc
          cases hc
        have ihr := ih s v m3 hallr hrec
        by_cases hts : t = s0
        · subst hts
          rw [btreeGet_text_hit, if_neg (fun hx => hss0 hx.symm), btreeGet_text_hit]
        · have hne : lexCmp t s0 ≠ .eq := fun hx => hts (lexCmp_eq_iff.mp hx)
          rw [btreeGet_text_skip hne, ihr t]
          by_cases hts2 : t = s
          · rw [if_pos hts2, if_pos hts2]
          · rw [if_neg hts2, if_neg hts2, btreeGet_text_skip hne]

theorem btreeGet_text_ok_iff :
    ∀ (m : List (Key × NodeDyn)) (t : ByteSeq), (∀ p ∈ m, p.1.isText = true) →
      ((∃ v, btreeGet m (.Text t) = some (Except.ok v)) ↔
        Key.Text t ∈ m.map Prod.fst) := by
  intro m
  induction m with
  | nil =>
    intro t _
    simp [btreeGet]
  | cons hd rest ih =>
    rcases hd with ⟨k0, v0⟩
    intro t hall
    obtain ⟨s0, rfl⟩ := Key.isText_eq_true (hall (k0, v0) (by simp))
    by_cases hts : t = s0
    · subst hts
      rw [btreeGet_text_hit]
      simp
    · have hne : lexCmp t s0 ≠ .eq := fun hx => hts (lexCmp_eq_iff.mp hx)
      rw [btreeGet_text_skip hne,
        ih t (fun p hp => hall p (List.mem_cons_of_mem _ hp))]
      simp [hts]

theorem lastAssoc_none_iff :
    ∀ (dict : List (ByteSeq × Cbor)) (t : ByteSeq),
      lastAssoc dict t = none ↔ t ∉ dict.map Prod.fst := by
  intro dict t
  induction dict with
  | nil => simp [lastAssoc]
  | cons hd rest ih =>
    rcases hd with ⟨k, v⟩
    simp only [lastAssoc]
    cases hla : lastAssoc rest t with
    | some c =>
      rw [hla] at ih
      have hmem : t ∈ rest.map Prod.fst := by
        by_contra hx
        exact Option.noConfusion (ih.mpr hx)
      simp [hmem]
    | none =>
      rw [hla] at ih
      by_cases hkt : k = t
      · subst hkt
        simp
      · have h1 : t ∉ List.map Prod.fst rest := ih.mp rfl
        rw [if_neg hkt]
        constructor
        · intro _
          simp only [List.map_cons, List.mem_cons]
          rintro (hx | hx)
          · exact hkt hx.symm
          · exact h1 hx
        · intro _
          rfl

theorem tryFromDict_spec :
    ∀ (dict : List (ByteSeq × Cbor)) (acc m : List (Key × NodeDyn)),
      (∀ p ∈ acc, p.1.isText = true) →
      tryFromDict dict acc = some (.ok m) →
      (∀ p ∈ m, p.1.isText = true) ∧
      (acc.Pairwise entryLt → m.Pairwise entryLt) ∧
      (∀ t c, lastAssoc dict t = some c →
        ∃ b, tryFrom c = some (Except.ok b) ∧
          btreeGet m (.Text t) = some (.ok (.basic b))) ∧
      (∀ t, lastAssoc dict t = none →
        btreeGet m (.Text t) = btreeGet acc (.Text t)) := by
  intro dict
  induction dict with
  | nil =>
    intro acc m hacc h
    simp only [tryFromDict, Option.some_inj] at h
    cases h
    refine ⟨hacc, fun hs => hs, fun t c hla => ?_, fun t _ => rfl⟩
    simp only [lastAssoc] at hla
    cases hla
  | cons hd rest ih =>
    rcases hd with ⟨k, v⟩
    intro acc m hacc h
    simp only [tryFromDict] at h
    split at h
    · cases h
    · simp at h
    · rename_i b hb
      split at h
      · cases h
      · rename_i acc2 hins
        have hacc2 : ∀ p ∈ acc2, p.1.isText = true :=
          btreeInsert_isText_all hacc
            (show (Key.Text k).isText = true from rfl) hins
        obtain ⟨hm, hsort, hsome, hnone⟩ := ih acc2 m hacc2 h
        have hget := btreeGet_text_insert acc k (.basic b) acc2 hacc hins
        refine ⟨hm, ?_, ?_, ?_⟩
        · intro hs
          exact hsort (btreeInsert_pairwise acc _ _ acc2 hs hins)
        · intro t c hla
          simp only [lastAssoc] at hla
          cases hrest : lastAssoc rest t with
          | some c2 =>
            rw [hrest] at hla
            rw [Option.some_inj] at hla
            subst hla
            exact hsome t c2 hrest
          | none =>
            rw [hrest] at hla
            by_cases hkt : k = t
            · rw [if_pos hkt] at hla
              rw [Option.some_inj] at hla
              subst hla
              subst hkt
              refine ⟨b, hb, ?_⟩
              rw [hnone k hrest, hget k, if_pos rfl]
            · rw [if_neg hkt] at hla
              cases hla
        · intro t hla
          simp only [lastAssoc] at hla
          cases hrest : lastAssoc rest t with
          | some c2 =>
            rw [hrest] at hla
            cases hla
          | none =>
            rw [hrest] at hla
            by_cases hkt : k = t
            · rw [if_pos hkt] at hla
              cases hla
            · rw [hnone t hrest, hget t, if_neg (fun hx => hkt hx.symm)]

/-- C7: conversion of a codec map recursively converts each value and
inserts it at `Key::Text(key)`; a later duplicate key silently overwrites
the earlier entry (last write wins), and the resulting map holds exactly
one node per distinct text key. -/
theorem map_conversion_spec :
    ∀ (i : Nat) (dict : List (ByteSeq × Cbor)) (b : Basic),
      tryFrom (.Major5 i dict) = some (.ok b) →
      ∃ m : List (Key × NodeDyn), b = .Map (.btree m) ∧
        (m.map Prod.fst).Pairwise (· ≠ ·) ∧
        (∀ t, Key.Text t ∈ m.map Prod.fst ↔ t ∈ dict.map Prod.fst) ∧
        (∀ t c, lastAssoc dict t = some c →
          ∃ bv, tryFrom c = some (Except.ok bv) ∧
            btreeGet m (.Text t) = some (.ok (.basic bv))) := by
  intro i dict b h
  simp only [tryFrom] at h
  split at h
  · cases h
  · simp at h
  · rename_i m hd
    rw [Option.some_inj] at h
    cases h
    obtain ⟨hm, hsort, hsome, hnone⟩ :=
      tryFromDict_spec dict [] m (by simp) hd
    refine ⟨m, rfl, ?_, ?_, hsome⟩
    · exact List.pairwise_map.mpr
        ((hsort List.Pairwise.nil).imp fun hpq => Key.cmp_lt_ne hpq)
    · intro t
      cases hla : lastAssoc dict t with
      | some c =>
        rcases hsome t c hla with ⟨bv, _, hgetv⟩
        have h1 : Key.Text t ∈ m.map Prod.fst :=
          (btreeGet_text_ok_iff m t hm).mp ⟨_, hgetv⟩
        have h2 : t ∈ dict.map Prod.fst := by
          by_contra hx
          rw [(lastAssoc_none_iff dict t).mpr hx] at hla
          cases hla
        simp [h1, h2]
      | none =>
        have h2 : t ∉ dict.map Prod.fst := (lastAssoc_none_iff dict t).mp hla
        have h3 : btreeGet m (.Text t) = btreeGet [] (.Text t) := hnone t hla
        have h1 : Key.Text t ∉ m.map Prod.fst := by
          intro hx
          rcases (btreeGet_text_ok_iff m t hm).mpr hx with ⟨v2, hv2⟩
          rw [h3] at hv2
          simp [btreeGet] at hv2
        simp [h1, h2]

/-- Witness for C7: a map input with duplicate text key `"x"` (byte 120)
whose second value overwrites the first. -/
theorem map_conversion_spec_witness :
    ∃ m : List (Key × NodeDyn),
      Basic.Map (.btree [(Key.Text [120], NodeDyn.basic (.Integer 2))]) =
        .Map (.btree m) ∧
      (m.map Prod.fst).Pairwise (· ≠ ·) ∧
      (∀ t, Key.Text t ∈ m.map Prod.fst ↔
        t ∈ ([([120], Cbor.Major0 0 1), ([120], Cbor.Major0 0 2)].map Prod.fst)) ∧
      (∀ t c,
        lastAssoc [([120], Cbor.Major0 0 1), ([120], Cbor.Major0 0 2)] t = some c →
        ∃ bv, tryFrom c = some (Except.ok bv) ∧
          btreeGet m (.Text t) = some (.ok (.basic bv))) :=
  map_conversion_spec 0 [([120], .Major0 0 1), ([120], .Major0 0 2)] _ rfl

/-! ## The conversion keeps every map node Text-keyed (tree invariant) -/

theorem cbor_sizeOf_pos (c : Cbor) : 0 < sizeOf c := by
  cases c <;> simp_arith

theorem sizeOf_mem_lt : ∀ (l : List Cbor) (a : Cbor), a ∈ l → sizeOf a < sizeOf l := by
  intro l
  induction l with
  | nil =>
    intro a ha
    cases ha
  | cons x rest ih =>
    intro a ha
    rcases List.mem_cons.mp ha with rfl | ha
    · simp
      omega
    · have := ih a ha
      simp
      omega

theorem sizeOf_dict_val_lt :
    ∀ (l : List (ByteSeq × Cbor)) (k : ByteSeq) (v : Cbor), (k, v) ∈ l →
      sizeOf v < sizeOf l := by
  intro l
  induction l with
  | nil =>
    intro k v hv
    cases hv
  | cons x rest ih =>
    intro k v hv
    rcases List.mem_cons.mp hv with heq | hv
    · subst heq
      simp
      omega
    · have := ih k v hv
      simp
      omega

theorem entriesAllText_key :
    ∀ (m : List (Key × NodeDyn)), entriesAllText m = true →
      ∀ p ∈ m, p.1.isText = true := by
  intro m
  induction m with
  | nil =>
    intro _ p hp
    cases hp
  | cons hd rest ih =>
    rcases hd with ⟨k, v⟩
    intro hm p hp
    simp only [entriesAllText, Bool.and_eq_true] at hm
    rcases List.mem_cons.mp hp with rfl | hp
    · exact hm.1.1
    · exact ih hm.2 p hp

theorem btreeInsert_entriesAllText :
    ∀ (m : List (Key × NodeDyn)) (k : Key) (v : NodeDyn)
      (m2 : List (Key × NodeDyn)),
      entriesAllText m = true → k.isText = true →
      NodeDyn.allMapKeysText v = true →
      btreeInsert m k v = some m2 → entriesAllText m2 = true := by
  intro m
  induction m with
  | nil =>
    intro k v m2 _ hk hv h
    simp only [btreeInsert, Option.some_inj] at h
    subst h
    simp [entriesAllText, hk, hv]
  | cons hd rest ih =>
    rcases hd with ⟨k0, v0⟩
    intro k v m2 hm hk hv h
    simp only [entriesAllText, Bool.and_eq_true] at hm
    simp only [btreeInsert] at h
    split at h
    · cases h
    · rw [Option.some_inj] at h
      subst h
      simp [entriesAllText, hk, hv, hm.1.1, hm.1.2, hm.2]
    · rw [Option.some_inj] at h
      subst h
      simp [entriesAllText, hm.1.1, hv, hm.2]
    · split at h
      · cases h
      · rename_i m3 hrec
        rw [Option.some_inj] at h
        subst h
        simp [entriesAllText, hm.1.1, hm.1.2, ih k v m3 hm.2 hk hv hrec]

theorem tryFromList_allText :
    ∀ (list : List Cbor) (xs : List NodeDyn),
      (∀ c2 ∈ list, ∀ b2 : Basic, tryFrom c2 = some (.ok b2) →
        Basic.allMapKeysText b2 = true) →
      tryFromList list = some (.ok xs) → nodesAllText xs = true := by
  intro list
  induction list with
  | nil =>
    intro xs _ h
    simp only [tryFromList, Option.some_inj] at h
    cases h
    rfl
  | cons c rest ih =>
    intro xs hel h
    simp only [tryFromList] at h
    split at h
    · cases h
    · simp at h
    · rename_i b hb
      split at h
      · cases h
      · simp at h
      · rename_i xs2 hxs2
        rw [Option.some_inj] at h
        cases h
        have h1 := hel c (by simp) b hb
        have h2 := ih xs2 (fun c2 hc2 => hel c2 (List.mem_cons_of_mem _ hc2)) hxs2
        simp [nodesAllText, NodeDyn.allMapKeysText, h1, h2]

theorem tryFromDict_allText :
    ∀ (dict : List (ByteSeq × Cbor)) (acc m : List (Key × NodeDyn)),
      (∀ p ∈ dict, ∀ b2 : Basic, tryFrom p.2 = some (.ok b2) →
        Basic.allMapKeysText b2 = true) →
      entriesAllText acc = true →
      tryFromDict dict acc = some (.ok m) → entriesAllText m = true := by
  intro dict
  induction dict with
  | nil =>
    intro acc m _ hacc h
    simp only [tryFromDict, Option.some_inj] at h
    cases h
    exact hacc
  | cons hd rest ih =>
    rcases hd with ⟨k, v⟩
    intro acc m hel hacc h
    simp only [tryFromDict] at h
    split at h
    · cases h
    · simp at h
    · rename_i b hb
      split at h
      · cases h
      · rename_i acc2 hins
        have hb2 : Basic.allMapKeysText b = true := hel (k, v) (by simp) b hb
        have hacc2 : entriesAllText acc2 = true :=
          btreeInsert_entriesAllText acc (.Text k) (.basic b) acc2 hacc rfl hb2 hins
        exact ih acc2 m (fun p hp => hel p (List.mem_cons_of_mem _ hp)) hacc2 h

theorem tryFrom_allText :
    ∀ (n : Nat) (c : Cbor), sizeOf c ≤ n → ∀ b : Basic,
      tryFrom c = some (.ok b) → Basic.allMapKeysText b = true := by
  intro n
  induction n with
  | zero =>
    intro c hc
    exact absurd hc (by have := cbor_sizeOf_pos c; omega)
  | succ n ihn =>
    intro c hc b h
    cases c with
    | Major0 i num =>
      simp only [tryFrom, Option.some_inj] at h
      cases h
      rfl
    | Major1 i num =>
      simp only [tryFrom, Option.some_inj] at h
      cases h
      rfl
    | Major2 i byts =>
      simp only [tryFrom, Option.some_inj] at h
      cases h
      rfl
    | Major3 i text =>
      simp only [tryFrom, Option.some_inj] at h
      cases h
      rfl
    | Major6 i tag =>
      rcases tag with ⟨cid⟩
      simp only [tryFrom, Option.some_inj] at h
      cases h
      rfl
    | Major7 i sv =>
      cases sv <;> simp only [tryFrom, Option.some_inj] at h <;> (try cases h) <;> rfl
    | Major4 i list =>
      simp only [tryFrom] at h
      split at h
      · cases h
      · simp at h
      · rename_i xs hxs
        rw [Option.some_inj] at h
        cases h
        have hsize : sizeOf list ≤ n := by
          simp at hc
          omega
        refine tryFromList_allText list xs (fun c2 hc2 b2 hb2 => ?_) hxs
        exact ihn c2 (by have := sizeOf_mem_lt list c2 hc2; omega) b2 hb2
    | Major5 i dict =>
      simp only [tryFrom] at h
      split at h
      · cases h
      · simp at h
      · rename_i m hm
        rw [Option.some_inj] at h
        cases h
        have hsize : sizeOf dict ≤ n := by
          simp at hc
          omega
        refine tryFromDict_allText dict [] m (fun p hp b2 hb2 => ?_) rfl hm
        rcases p with ⟨k2, v2⟩
        exact ihn v2
          (by have := sizeOf_dict_val_lt dict k2 v2 hp; omega) b2 hb2

theorem btreeGet_nontext :
    ∀ (m : List (Key × NodeDyn)) (k : Key), (∀ p ∈ m, p.1.isText = true) →
      k.isText = false →
      btreeGet m k =
        some (.error ⟨.IndexFail, "missing key in btreemap " ++ k.display⟩) := by
  intro m
  induction m with
  | nil =>
    intro k _ _
    rfl
  | cons hd rest ih =>
    rcases hd with ⟨k0, v0⟩
    intro k hall hk
    obtain ⟨s0, rfl⟩ := Key.isText_eq_true (hall (k0, v0) (by simp))
    cases k
    case Text s => simp [Key.isText] at hk
    all_goals exact ih _ (fun p hp => hall p (List.mem_cons_of_mem _ hp)) hk

/-- C10: every map node in a tree produced by a successful conversion is
keyed exclusively by `Text` keys (every entry yielded by `iter_entries()`
on any map node of the tree has a `Text` key), and `get` with a `Null`,
`Bool`, `Offset` or `Bytes` key on such a map always fails with
`IndexFail`. -/
theorem conversion_map_keys_text :
    (∀ (c : Cbor) (b : Basic), tryFrom c = some (.ok b) →
      Basic.allMapKeysText b = true) ∧
    (∀ m : List (Key × NodeDyn), entriesAllText m = true →
      ∀ p ∈ btreeIterEntries m, p.1.isText = true) ∧
    (∀ (m : List (Key × NodeDyn)) (k : Key), (∀ p ∈ m, p.1.isText = true) →
      k.isText = false →
      Basic.get (.Map (.btree m)) k =
        some (.error ⟨.IndexFail, "missing key in btreemap " ++ k.display⟩)) :=
  ⟨fun c b h => tryFrom_allText (sizeOf c) c (Nat.le_refl _) b h,
    fun m hm p hp => entriesAllText_key m hm p hp,
    fun m k hall hk => btreeGet_nontext m k hall hk⟩

/-- Witness for C10: a converted one-entry map, and non-`Text` lookups on
a concrete `Text`-keyed map container. -/
theorem conversion_map_keys_text_witness :
    Basic.allMapKeysText
      (.Map (.btree [(Key.Text [120], NodeDyn.basic (.Integer 1))])) = true ∧
    (∀ p ∈ btreeIterEntries [(Key.Text [120], NodeDyn.basic .Null)],
      p.1.isText = true) ∧
    Basic.get (.Map (.btree [(Key.Text [120], NodeDyn.basic .Null)])) (.Offset 0) =
      some (.error
        ⟨.IndexFail, "missing key in btreemap " ++ (Key.Offset 0).display⟩) :=
  ⟨conversion_map_keys_text.1 (.Major5 0 [([120], .Major0 0 1)]) _ rfl,
    conversion_map_keys_text.2.1 [(Key.Text [120], NodeDyn.basic .Null)] rfl,
    conversion_map_keys_text.2.2 [(Key.Text [120], NodeDyn.basic .Null)]
      (.Offset 0) (by simp [Key.isText]) rfl⟩
